import Mathlib

/-!
Verification of the rosrust TCPROS codec and service client.

The encoder (`src/tcpros/encoder.rs`) keeps its partial output as an ordered
sequence of byte chunks so that a length slot reserved earlier can be
backfilled after later chunks were appended.  Bytes are modelled as natural
numbers (every produced byte is < 256), machine-integer casts appear as
explicit reductions modulo a power of two.
-/

namespace Rosrust

/-- Little-endian byte list of width `w` for a natural number (each byte is
taken modulo 256, so the value is implicitly reduced modulo `256 ^ w`). -/
def leBytes : Nat → Nat → List Nat
  | 0, _ => []
  | w + 1, v => v % 256 :: leBytes w (v / 256)

/-- Two's-complement little-endian bytes of width `w` for an integer,
mirroring `write_i8` / `write_i16` / `write_i32` / `write_i64`. -/
def intBytes (w : Nat) (v : Int) : List Nat :=
  leBytes w (v.emod (2 ^ (8 * w))).toNat

/-- The numeric value of a little-endian byte list. -/
def leVal : List Nat → Nat
  | [] => 0
  | b :: bs => b + 256 * leVal bs

theorem leBytes_length (w : Nat) : ∀ v : Nat, (leBytes w v).length = w := by
  induction w with
  | zero => intro v; simp [leBytes]
  | succ w ih => intro v; simp [leBytes, ih]

theorem leVal_leBytes (w : Nat) : ∀ v : Nat, leVal (leBytes w v) = v % 256 ^ w := by
  induction w with
  | zero => intro v; simp [leBytes, leVal, Nat.mod_one]
  | succ w ih =>
    intro v
    have h256 : (256 : Nat) ^ (w + 1) = 256 * 256 ^ w := by ring
    rw [leBytes, leVal, ih, h256, Nat.mod_mul]

/-- Encoder state from `src/tcpros/encoder.rs`: an ordered sequence of byte
chunks (`output: Vec<Vec<u8>>`). -/
structure Encoder where
  output : List (List Nat)
deriving DecidableEq

/-- `Encoder::new` -/
def Encoder.new : Encoder := ⟨[]⟩

/-- `Encoder::len`: fold summing the chunk lengths. -/
def Encoder.len (e : Encoder) : Nat :=
  e.output.foldl (fun accum v => accum + v.length) 0

/-- `Encoder::write_to`: concatenates the chunks in order into the sink. -/
def Encoder.writeTo (e : Encoder) : List Nat :=
  e.output.flatten

/-- Error type of the encoder (`super::error::Error`): `UnsupportedData` or a
wrapped I/O error (the latter cannot arise when writing to in-memory buffers). -/
inductive Error where
  | UnsupportedData
  | Io
deriving DecidableEq

/-- `Encoder::write_size`: casts `usize` to `u32` (reduction modulo `2 ^ 32`)
and appends its 4 little-endian bytes as a fresh chunk. -/
def writeSize (e : Encoder) (v : Nat) : Encoder :=
  ⟨e.output ++ [leBytes 4 (v % 2 ^ 32)]⟩

/-- `Encoder::write_variable`: appends the buffer as a fresh chunk. -/
def writeVariable (e : Encoder) (buffer : List Nat) : Encoder :=
  ⟨e.output ++ [buffer]⟩

/-- Helper for `write_size_in_middle`: append bytes `b` to the chunk at the
given index (out-of-range indices leave the list unchanged; all call sites
are in range, matching the `unwrap`). -/
def modifyChunk : List (List Nat) → Nat → List Nat → List (List Nat)
  | [], _, _ => []
  | c :: cs, 0, b => (c ++ b) :: cs
  | c :: cs, n + 1, b => c :: modifyChunk cs n b

/-- `Encoder::write_size_in_middle`: casts to `u32` and appends the 4
little-endian bytes to the (reserved, empty) chunk at `position`. -/
def writeSizeInMiddle (e : Encoder) (position v : Nat) : Encoder :=
  ⟨modifyChunk e.output position (leBytes 4 (v % 2 ^ 32))⟩

/-- `self.output[position..].iter().map(|v| v.len()).sum()` -/
def sumLenFrom (l : List (List Nat)) (p : Nat) : Nat :=
  ((l.drop p).map List.length).sum

/-- Total byte count of a chunk list. -/
def chunkLen (cs : List (List Nat)) : Nat :=
  (cs.map List.length).sum

/-- The shapes a `rustc_serialize` encodable value can present to the
encoder, one constructor per `emit_*` entry point.  Floats are carried by
their IEEE-754 bit patterns (`byteorder` writes exactly those bits). -/
inductive Value where
  | vU8 (v : Nat)
  | vU16 (v : Nat)
  | vU32 (v : Nat)
  | vU64 (v : Nat)
  | vI8 (v : Int)
  | vI16 (v : Int)
  | vI32 (v : Int)
  | vI64 (v : Int)
  | vF32 (bits : Nat)
  | vF64 (bits : Nat)
  | vBool (b : Bool)
  | vStr (s : List Nat)
  | vNil
  | vUsize (v : Nat)
  | vIsize (v : Int)
  | vChar (c : Nat)
  | vOption (o : Option Value)
  | vMap (entries : List (Value × Value))
  | vEnum (name : String)
  | vTupleStruct (name : String) (args : List Value)
  | vStruct (name : String) (fields : List (String × Value))
  | vTuple (elems : List Value)
  | vSeq (elems : List Value)

/-- Shared tail of `emit_tuple` / `emit_struct` / `emit_seq`: on success,
compute the byte count of every chunk from `position` on and backfill it
into the reserved chunk at `position - 1`; on failure propagate the error. -/
def finishBlock (r : Encoder × Option Error) (position : Nat) : Encoder × Option Error :=
  match r with
  | (e2, some err) => (e2, some err)
  | (e2, none) => (writeSizeInMiddle e2 (position - 1) (sumLenFrom e2.output position), none)

mutual

/-- The `rustc_serialize::Encoder` impl for `Encoder`, dispatching on the
shape of the value exactly as the `emit_*` methods do.  The returned pair is
the updated encoder state and the optional error (the state survives an
error, as the Rust methods mutate `self` in place). -/
def emit : Value → Encoder → Encoder × Option Error
  | .vU8 v, e => (writeVariable e [v % 256], none)
  | .vU16 v, e => (writeVariable e (leBytes 2 v), none)
  | .vU32 v, e => (writeVariable e (leBytes 4 v), none)
  | .vU64 v, e => (writeVariable e (leBytes 8 v), none)
  | .vI8 v, e => (writeVariable e (intBytes 1 v), none)
  | .vI16 v, e => (writeVariable e (intBytes 2 v), none)
  | .vI32 v, e => (writeVariable e (intBytes 4 v), none)
  | .vI64 v, e => (writeVariable e (intBytes 8 v), none)
  | .vF32 bits, e => (writeVariable e (leBytes 4 bits), none)
  | .vF64 bits, e => (writeVariable e (leBytes 8 bits), none)
  | .vBool b, e => (writeVariable e [if b then 1 else 0], none)
  | .vStr s, e => (writeVariable (writeSize e s.length) s, none)
  | .vNil, e => (e, some .UnsupportedData)
  | .vUsize _, e => (e, some .UnsupportedData)
  | .vIsize _, e => (e, some .UnsupportedData)
  | .vChar _, e => (e, some .UnsupportedData)
  | .vOption _, e => (e, some .UnsupportedData)
  | .vMap _, e => (e, some .UnsupportedData)
  | .vEnum _, e => (e, some .UnsupportedData)
  | .vTupleStruct _ _, e => (e, some .UnsupportedData)
  | .vStruct _ fields, e =>
    finishBlock (emitFields fields ⟨e.output ++ [[]]⟩) (e.output.length + 1)
  | .vTuple elems, e =>
    finishBlock (emitList elems ⟨e.output ++ [[]]⟩) (e.output.length + 1)
  | .vSeq elems, e =>
    finishBlock (emitList elems (writeSize ⟨e.output ++ [[]]⟩ elems.length))
      (e.output.length + 1)

/-- Sequential element encoding (`emit_seq_elt` / `emit_tuple_arg` are
identity wrappers, so the elements are encoded in order, stopping at the
first error). -/
def emitList : List Value → Encoder → Encoder × Option Error
  | [], e => (e, none)
  | v :: vs, e =>
    match emit v e with
    | (e1, none) => emitList vs e1
    | (e1, some err) => (e1, some err)

/-- Sequential struct-field encoding (`emit_struct_field` is an identity
wrapper: the field name is ignored and only the value is encoded). -/
def emitFields : List (String × Value) → Encoder → Encoder × Option Error
  | [], e => (e, none)
  | (_, v) :: fs, e =>
    match emit v e with
    | (e1, none) => emitFields fs e1
    | (e1, some err) => (e1, some err)

end

/-- Top-level encoding: run `emit` on a fresh encoder and concatenate the
chunks (`write_to`); `none` when the value's shape is unsupported. -/
def encode (v : Value) : Option (List Nat) :=
  match emit v Encoder.new with
  | (e, none) => some e.writeTo
  | (_, some _) => none

mutual

/-- Pure description of the chunks `emit` appends on success (`none` exactly
when some reached sub-value has an unsupported shape). -/
def chunksOf : Value → Option (List (List Nat))
  | .vU8 v => some [[v % 256]]
  | .vU16 v => some [leBytes 2 v]
  | .vU32 v => some [leBytes 4 v]
  | .vU64 v => some [leBytes 8 v]
  | .vI8 v => some [intBytes 1 v]
  | .vI16 v => some [intBytes 2 v]
  | .vI32 v => some [intBytes 4 v]
  | .vI64 v => some [intBytes 8 v]
  | .vF32 bits => some [leBytes 4 bits]
  | .vF64 bits => some [leBytes 8 bits]
  | .vBool b => some [[if b then 1 else 0]]
  | .vStr s => some [leBytes 4 (s.length % 2 ^ 32), s]
  | .vNil => none
  | .vUsize _ => none
  | .vIsize _ => none
  | .vChar _ => none
  | .vOption _ => none
  | .vMap _ => none
  | .vEnum _ => none
  | .vTupleStruct _ _ => none
  | .vStruct _ fields =>
    match chunksFields fields with
    | some cs => some (leBytes 4 (chunkLen cs % 2 ^ 32) :: cs)
    | none => none
  | .vTuple elems =>
    match chunksList elems with
    | some cs => some (leBytes 4 (chunkLen cs % 2 ^ 32) :: cs)
    | none => none
  | .vSeq elems =>
    match chunksList elems with
    | some cs =>
      some (leBytes 4 ((4 + chunkLen cs) % 2 ^ 32)
        :: leBytes 4 (elems.length % 2 ^ 32) :: cs)
    | none => none

/-- Chunks of a list of values, concatenated. -/
def chunksList : List Value → Option (List (List Nat))
  | [] => some []
  | v :: vs =>
    match chunksOf v, chunksList vs with
    | some c, some cs => some (c ++ cs)
    | _, _ => none

/-- Chunks of struct fields (names ignored), concatenated. -/
def chunksFields : List (String × Value) → Option (List (List Nat))
  | [] => some []
  | (_, v) :: fs =>
    match chunksOf v, chunksFields fs with
    | some c, some cs => some (c ++ cs)
    | _, _ => none

end

theorem chunkLen_append (xs ys : List (List Nat)) :
    chunkLen (xs ++ ys) = chunkLen xs + chunkLen ys := by
  simp [chunkLen]

theorem modifyChunk_append (xs : List (List Nat)) (y : List Nat)
    (ys : List (List Nat)) (b : List Nat) :
    modifyChunk (xs ++ y :: ys) xs.length b = xs ++ (y ++ b) :: ys := by
  induction xs with
  | nil => simp [modifyChunk]
  | cons x xs ih => simp [modifyChunk, ih]

theorem sumLenFrom_append (xs cs : List (List Nat)) :
    sumLenFrom (xs ++ cs) xs.length = chunkLen cs := by
  simp [sumLenFrom, chunkLen, List.drop_left]

theorem finishBlock_err (e2 : Encoder) (err : Error) (p : Nat) :
    finishBlock (e2, some err) p = (e2, some err) := rfl

theorem finishBlock_eval (pre cs : List (List Nat)) :
    finishBlock (⟨(pre ++ [[]]) ++ cs⟩, none) ((pre ++ [[]]).length)
      = (⟨pre ++ leBytes 4 (chunkLen cs % 2 ^ 32) :: cs⟩, none) := by
  have hlen : (pre ++ [[]]).length = pre.length + 1 := by simp
  have hdrop : sumLenFrom ((pre ++ [[]]) ++ cs) (pre.length + 1) = chunkLen cs := by
    have h := sumLenFrom_append (pre ++ [[]]) cs
    rwa [hlen] at h
  have hmod : modifyChunk ((pre ++ [[]]) ++ cs) pre.length
      (leBytes 4 (chunkLen cs % 2 ^ 32)) = pre ++ leBytes 4 (chunkLen cs % 2 ^ 32) :: cs := by
    rw [List.append_assoc]
    simpa using modifyChunk_append pre [] cs (leBytes 4 (chunkLen cs % 2 ^ 32))
  rw [hlen]
  show (writeSizeInMiddle ⟨(pre ++ [[]]) ++ cs⟩ (pre.length + 1 - 1)
      (sumLenFrom ((pre ++ [[]]) ++ cs) (pre.length + 1)), (none : Option Error)) = _
  rw [Nat.add_sub_cancel, hdrop]
  show (Encoder.mk (modifyChunk ((pre ++ [[]]) ++ cs) pre.length
      (leBytes 4 (chunkLen cs % 2 ^ 32))), (none : Option Error)) = _
  rw [hmod]

theorem finishBlock_eval_seq (pre : List (List Nat)) (cnt : List Nat)
    (cs : List (List Nat)) (hc : cnt.length = 4) :
    finishBlock (⟨((pre ++ [[]]) ++ [cnt]) ++ cs⟩, none) ((pre ++ [[]]).length)
      = (⟨pre ++ leBytes 4 ((4 + chunkLen cs) % 2 ^ 32) :: cnt :: cs⟩, none) := by
  have hlen : (pre ++ [[]]).length = pre.length + 1 := by simp
  have hdrop : sumLenFrom (((pre ++ [[]]) ++ [cnt]) ++ cs) (pre.length + 1)
      = 4 + chunkLen cs := by
    have h := sumLenFrom_append (pre ++ [[]]) ([cnt] ++ cs)
    rw [hlen, ← List.append_assoc] at h
    rw [h, chunkLen_append]
    simp [chunkLen, hc]
  have hmod : modifyChunk (((pre ++ [[]]) ++ [cnt]) ++ cs) pre.length
      (leBytes 4 ((4 + chunkLen cs) % 2 ^ 32))
      = pre ++ leBytes 4 ((4 + chunkLen cs) % 2 ^ 32) :: cnt :: cs := by
    have hsplit : ((pre ++ [[]]) ++ [cnt]) ++ cs = pre ++ [] :: cnt :: cs := by simp
    rw [hsplit]
    simpa using modifyChunk_append pre [] (cnt :: cs)
      (leBytes 4 ((4 + chunkLen cs) % 2 ^ 32))
  rw [hlen]
  show (writeSizeInMiddle ⟨((pre ++ [[]]) ++ [cnt]) ++ cs⟩ (pre.length + 1 - 1)
      (sumLenFrom (((pre ++ [[]]) ++ [cnt]) ++ cs) (pre.length + 1)), (none : Option Error)) = _
  rw [Nat.add_sub_cancel, hdrop]
  show (Encoder.mk (modifyChunk (((pre ++ [[]]) ++ [cnt]) ++ cs) pre.length
      (leBytes 4 ((4 + chunkLen cs) % 2 ^ 32))), (none : Option Error)) = _
  rw [hmod]

mutual

/-- Central correspondence: on success `emit` appends exactly the chunks
described by `chunksOf`, leaving the prior output untouched; when the shape
is unsupported it reports `UnsupportedData`. -/
theorem emit_spec (v : Value) (e : Encoder) :
    (∀ cs, chunksOf v = some cs → emit v e = (⟨e.output ++ cs⟩, none)) ∧
    (chunksOf v = none → (emit v e).2 = some Error.UnsupportedData) := by
  cases v with
  | vStruct name fields =>
    have hl := emitFields_spec fields ⟨e.output ++ [[]]⟩
    constructor
    · intro cs hcs
      simp only [chunksOf] at hcs
      cases hres : chunksFields fields with
      | none => rw [hres] at hcs; exact absurd hcs (by simp)
      | some cs' =>
        rw [hres] at hcs
        simp only [Option.some.injEq] at hcs
        subst hcs
        have he := hl.1 cs' hres
        simp only [emit]
        rw [he]
        have hfin := finishBlock_eval e.output cs'
        simpa using hfin
    · intro h
      simp only [chunksOf] at h
      cases hres : chunksFields fields with
      | some cs' => rw [hres] at h; exact absurd h (by simp)
      | none =>
        have he := hl.2 hres
        simp only [emit]
        rcases hE : emitFields fields ⟨e.output ++ [[]]⟩ with ⟨e1, err⟩
        rw [hE] at he
        simp at he
        subst he
        simp [finishBlock]
  | vTuple elems =>
    have hl := emitList_spec elems ⟨e.output ++ [[]]⟩
    constructor
    · intro cs hcs
      simp only [chunksOf] at hcs
      cases hres : chunksList elems with
      | none => rw [hres] at hcs; exact absurd hcs (by simp)
      | some cs' =>
        rw [hres] at hcs
        simp only [Option.some.injEq] at hcs
        subst hcs
        have he := hl.1 cs' hres
        simp only [emit]
        rw [he]
        have hfin := finishBlock_eval e.output cs'
        simpa using hfin
    · intro h
      simp only [chunksOf] at h
      cases hres : chunksList elems with
      | some cs' => rw [hres] at h; exact absurd h (by simp)
      | none =>
        have he := hl.2 hres
        simp only [emit]
        rcases hE : emitList elems ⟨e.output ++ [[]]⟩ with ⟨e1, err⟩
        rw [hE] at he
        simp at he
        subst he
        simp [finishBlock]
  | vSeq elems =>
    have hl := emitList_spec elems ⟨(e.output ++ [[]]) ++ [leBytes 4 (elems.length % 2 ^ 32)]⟩
    constructor
    · intro cs hcs
      simp only [chunksOf] at hcs
      cases hres : chunksList elems with
      | none => rw [hres] at hcs; exact absurd hcs (by simp)
      | some cs' =>
        rw [hres] at hcs
        simp only [Option.some.injEq] at hcs
        subst hcs
        have he := hl.1 cs' hres
        simp only [emit, writeSize]
        rw [he]
        have hfin := finishBlock_eval_seq e.output (leBytes 4 (elems.length % 2 ^ 32)) cs'
          (leBytes_length 4 _)
        simpa using hfin
    · intro h
      simp only [chunksOf] at h
      cases hres : chunksList elems with
      | some cs' => rw [hres] at h; exact absurd h (by simp)
      | none =>
        have he := hl.2 hres
        simp only [emit, writeSize]
        rcases hE : emitList elems ⟨(e.output ++ [[]]) ++ [leBytes 4 (elems.length % 2 ^ 32)]⟩
          with ⟨e1, err⟩
        rw [hE] at he
        simp at he
        subst he
        simp [finishBlock]
  | vU8 x =>
    exact ⟨fun cs hcs => by
        simp only [chunksOf, Option.some.injEq] at hcs
        subst hcs
        simp [emit, writeVariable],
      fun h => by simp [chunksOf] at h⟩
  | vU16 x =>
    exact ⟨fun cs hcs => by
        simp only [chunksOf, Option.some.injEq] at hcs
        subst hcs
        simp [emit, writeVariable],
      fun h => by simp [chunksOf] at h⟩
  | vU32 x =>
    exact ⟨fun cs hcs => by
        simp only [chunksOf, Option.some.injEq] at hcs
        subst hcs
        simp [emit, writeVariable],
      fun h => by simp [chunksOf] at h⟩
  | vU64 x =>
    exact ⟨fun cs hcs => by
        simp only [chunksOf, Option.some.injEq] at hcs
        subst hcs
        simp [emit, writeVariable],
      fun h => by simp [chunksOf] at h⟩
  | vI8 x =>
    exact ⟨fun cs hcs => by
        simp only [chunksOf, Option.some.injEq] at hcs
        subst hcs
        simp [emit, writeVariable],
      fun h => by simp [chunksOf] at h⟩
  | vI16 x =>
    exact ⟨fun cs hcs => by
        simp only [chunksOf, Option.some.injEq] at hcs
        subst hcs
        simp [emit, writeVariable],
      fun h => by simp [chunksOf] at h⟩
  | vI32 x =>
    exact ⟨fun cs hcs => by
        simp only [chunksOf, Option.some.injEq] at hcs
        subst hcs
        simp [emit, writeVariable],
      fun h => by simp [chunksOf] at h⟩
  | vI64 x =>
    exact ⟨fun cs hcs => by
        simp only [chunksOf, Option.some.injEq] at hcs
        subst hcs
        simp [emit, writeVariable],
      fun h => by simp [chunksOf] at h⟩
  | vF32 x =>
    exact ⟨fun cs hcs => by
        simp only [chunksOf, Option.some.injEq] at hcs
        subst hcs
        simp [emit, writeVariable],
      fun h => by simp [chunksOf] at h⟩
  | vF64 x =>
    exact ⟨fun cs hcs => by
        simp only [chunksOf, Option.some.injEq] at hcs
        subst hcs
        simp [emit, writeVariable],
      fun h => by simp [chunksOf] at h⟩
  | vBool b =>
    exact ⟨fun cs hcs => by
        simp only [chunksOf, Option.some.injEq] at hcs
        subst hcs
        simp [emit, writeVariable],
      fun h => by simp [chunksOf] at h⟩
  | vStr s =>
    exact ⟨fun cs hcs => by
        simp only [chunksOf, Option.some.injEq] at hcs
        subst hcs
        simp [emit, writeVariable, writeSize],
      fun h => by simp [chunksOf] at h⟩
  | vNil =>
    exact ⟨fun cs hcs => by simp [chunksOf] at hcs, fun h => by simp [emit]⟩
  | vUsize x =>
    exact ⟨fun cs hcs => by simp [chunksOf] at hcs, fun h => by simp [emit]⟩
  | vIsize x =>
    exact ⟨fun cs hcs => by simp [chunksOf] at hcs, fun h => by simp [emit]⟩
  | vChar x =>
    exact ⟨fun cs hcs => by simp [chunksOf] at hcs, fun h => by simp [emit]⟩
  | vOption o =>
    exact ⟨fun cs hcs => by simp [chunksOf] at hcs, fun h => by simp [emit]⟩
  | vMap entries =>
    exact ⟨fun cs hcs => by simp [chunksOf] at hcs, fun h => by simp [emit]⟩
  | vEnum name =>
    exact ⟨fun cs hcs => by simp [chunksOf] at hcs, fun h => by simp [emit]⟩
  | vTupleStruct name args =>
    exact ⟨fun cs hcs => by simp [chunksOf] at hcs, fun h => by simp [emit]⟩

/-- List version of `emit_spec`. -/
theorem emitList_spec (vs : List Value) (e : Encoder) :
    (∀ cs, chunksList vs = some cs → emitList vs e = (⟨e.output ++ cs⟩, none)) ∧
    (chunksList vs = none → (emitList vs e).2 = some Error.UnsupportedData) := by
  cases vs with
  | nil =>
    constructor
    · intro cs hcs
      simp only [chunksList, Option.some.injEq] at hcs
      subst hcs
      simp [emitList]
    · intro h
      simp [chunksList] at h
  | cons v vs =>
    have hv := emit_spec v e
    constructor
    · intro cs hcs
      simp only [chunksList] at hcs
      cases hcv : chunksOf v with
      | none => rw [hcv] at hcs; exact absurd hcs (by simp)
      | some c =>
        cases hcl : chunksList vs with
        | none => rw [hcv, hcl] at hcs; exact absurd hcs (by simp)
        | some cs' =>
          rw [hcv, hcl] at hcs
          simp only [Option.some.injEq] at hcs
          subst hcs
          have h1 := hv.1 c hcv
          have h2 := (emitList_spec vs ⟨e.output ++ c⟩).1 cs' hcl
          simp only [emitList]
          rw [h1]
          show emitList vs ⟨e.output ++ c⟩ = _
          rw [h2]
          simp
    · intro h
      simp only [chunksList] at h
      cases hcv : chunksOf v with
      | none =>
        have h1 := hv.2 hcv
        simp only [emitList]
        rcases hE : emit v e with ⟨e1, err⟩
        rw [hE] at h1
        simp at h1
        subst h1
        simp
      | some c =>
        cases hcl : chunksList vs with
        | some cs' => rw [hcv, hcl] at h; exact absurd h (by simp)
        | none =>
          have h1 := hv.1 c hcv
          have h2 := (emitList_spec vs ⟨e.output ++ c⟩).2 hcl
          simp only [emitList]
          rw [h1]
          show (emitList vs ⟨e.output ++ c⟩).2 = _
          exact h2

/-- Struct-field version of `emit_spec`. -/
theorem emitFields_spec (fs : List (String × Value)) (e : Encoder) :
    (∀ cs, chunksFields fs = some cs → emitFields fs e = (⟨e.output ++ cs⟩, none)) ∧
    (chunksFields fs = none → (emitFields fs e).2 = some Error.UnsupportedData) := by
  cases fs with
  | nil =>
    constructor
    · intro cs hcs
      simp only [chunksFields, Option.some.injEq] at hcs
      subst hcs
      simp [emitFields]
    · intro h
      simp [chunksFields] at h
  | cons f fs =>
    obtain ⟨a, v⟩ := f
    have hv := emit_spec v e
    constructor
    · intro cs hcs
      simp only [chunksFields] at hcs
      cases hcv : chunksOf v with
      | none => rw [hcv] at hcs; exact absurd hcs (by simp)
      | some c =>
        cases hcl : chunksFields fs with
        | none => rw [hcv, hcl] at hcs; exact absurd hcs (by simp)
        | some cs' =>
          rw [hcv, hcl] at hcs
          simp only [Option.some.injEq] at hcs
          subst hcs
          have h1 := hv.1 c hcv
          have h2 := (emitFields_spec fs ⟨e.output ++ c⟩).1 cs' hcl
          simp only [emitFields]
          rw [h1]
          show emitFields fs ⟨e.output ++ c⟩ = _
          rw [h2]
          simp
    · intro h
      simp only [chunksFields] at h
      cases hcv : chunksOf v with
      | none =>
        have h1 := hv.2 hcv
        simp only [emitFields]
        rcases hE : emit v e with ⟨e1, err⟩
        rw [hE] at h1
        simp at h1
        subst h1
        simp
      | some c =>
        cases hcl : chunksFields fs with
        | some cs' => rw [hcv, hcl] at h; exact absurd h (by simp)
        | none =>
          have h1 := hv.1 c hcv
          have h2 := (emitFields_spec fs ⟨e.output ++ c⟩).2 hcl
          simp only [emitFields]
          rw [h1]
          show (emitFields fs ⟨e.output ++ c⟩).2 = _
          exact h2

end

theorem encode_eq_chunks (v : Value) (cs : List (List Nat))
    (h : chunksOf v = some cs) : encode v = some cs.flatten := by
  have he := (emit_spec v Encoder.new).1 cs h
  simp only [Encoder.new] at he
  simp [encode, Encoder.new, he, Encoder.writeTo]

theorem encode_eq_none (v : Value) (h : chunksOf v = none) : encode v = none := by
  have he := (emit_spec v Encoder.new).2 h
  rcases hE : emit v Encoder.new with ⟨e1, err⟩
  rw [hE] at he
  simp at he
  subst he
  simp [encode, hE]

theorem encode_some_inv (v : Value) (bs : List Nat) (h : encode v = some bs) :
    ∃ cs, chunksOf v = some cs ∧ bs = cs.flatten := by
  cases hc : chunksOf v with
  | none => rw [encode_eq_none v hc] at h; exact absurd h (by simp)
  | some cs =>
    rw [encode_eq_chunks v cs hc] at h
    simp only [Option.some.injEq] at h
    exact ⟨cs, rfl, h.symm⟩

theorem flatten_chunkLen (cs : List (List Nat)) : cs.flatten.length = chunkLen cs := by
  simp [chunkLen]

/-- The composite shapes: struct, tuple, homogeneous sequence. -/
def isComposite : Value → Bool
  | .vStruct _ _ => true
  | .vTuple _ => true
  | .vSeq _ => true
  | _ => false

/-- The shapes that are written with a leading backfilled 4-byte size:
the composites and strings. -/
def isFramed : Value → Bool
  | .vStr _ => true
  | .vStruct _ _ => true
  | .vTuple _ => true
  | .vSeq _ => true
  | _ => false

theorem framed_chunks (v : Value) (hf : isFramed v = true) (cs : List (List Nat))
    (h : chunksOf v = some cs) :
    ∃ rest, cs = leBytes 4 (chunkLen rest % 2 ^ 32) :: rest := by
  cases v with
  | vStr s =>
    refine ⟨[s], ?_⟩
    simp only [chunksOf, Option.some.injEq] at h
    subst h
    simp [chunkLen]
  | vStruct name fields =>
    simp only [chunksOf] at h
    cases hres : chunksFields fields with
    | none => rw [hres] at h; exact absurd h (by simp)
    | some cs' =>
      rw [hres] at h
      simp only [Option.some.injEq] at h
      subst h
      exact ⟨cs', rfl⟩
  | vTuple elems =>
    simp only [chunksOf] at h
    cases hres : chunksList elems with
    | none => rw [hres] at h; exact absurd h (by simp)
    | some cs' =>
      rw [hres] at h
      simp only [Option.some.injEq] at h
      subst h
      exact ⟨cs', rfl⟩
  | vSeq elems =>
    simp only [chunksOf] at h
    cases hres : chunksList elems with
    | none => rw [hres] at h; exact absurd h (by simp)
    | some cs' =>
      rw [hres] at h
      simp only [Option.some.injEq] at h
      subst h
      refine ⟨leBytes 4 (elems.length % 2 ^ 32) :: cs', ?_⟩
      simp [chunkLen, leBytes_length, Nat.add_comm]
  | vU8 x => simp [isFramed] at hf
  | vU16 x => simp [isFramed] at hf
  | vU32 x => simp [isFramed] at hf
  | vU64 x => simp [isFramed] at hf
  | vI8 x => simp [isFramed] at hf
  | vI16 x => simp [isFramed] at hf
  | vI32 x => simp [isFramed] at hf
  | vI64 x => simp [isFramed] at hf
  | vF32 x => simp [isFramed] at hf
  | vF64 x => simp [isFramed] at hf
  | vBool b => simp [isFramed] at hf
  | vNil => simp [isFramed] at hf
  | vUsize x => simp [isFramed] at hf
  | vIsize x => simp [isFramed] at hf
  | vChar x => simp [isFramed] at hf
  | vOption o => simp [isFramed] at hf
  | vMap entries => simp [isFramed] at hf
  | vEnum name => simp [isFramed] at hf
  | vTupleStruct name args => simp [isFramed] at hf

/-- Uniform frame decomposition of a successful framed encoding: the bytes
are a 4-byte little-endian size (the byte count of the remainder reduced
modulo `2 ^ 32`) followed by the remainder. -/
theorem encode_framed (v : Value) (hf : isFramed v = true) (bs : List Nat)
    (h : encode v = some bs) :
    ∃ rest : List Nat, bs = leBytes 4 (rest.length % 2 ^ 32) ++ rest := by
  obtain ⟨cs, hc, hbs⟩ := encode_some_inv v bs h
  obtain ⟨rest, hrest⟩ := framed_chunks v hf cs hc
  subst hrest
  subst hbs
  refine ⟨rest.flatten, ?_⟩
  rw [flatten_chunkLen]
  simp

theorem take_leBytes_append (v : Nat) (rest : List Nat) :
    (leBytes 4 v ++ rest).take 4 = leBytes 4 v :=
  List.take_left' (leBytes_length 4 v)

theorem length_leBytes_append (v : Nat) (rest : List Nat) :
    (leBytes 4 v ++ rest).length = 4 + rest.length := by
  simp [leBytes_length]

theorem pow256_four : (256 : Nat) ^ 4 = 2 ^ 32 := by norm_num

/-- Claim C1 (amended): a successful composite encoding starts with the
4-byte little-endian value of (total length - 4) reduced modulo 2 ^ 32;
whenever that count is below 2 ^ 32 the prefix is exactly the count of the
bytes that follow it. -/
theorem composite_frame_length (v : Value) (hc : isComposite v = true)
    (bs : List Nat) (h : encode v = some bs) :
    bs.take 4 = leBytes 4 ((bs.length - 4) % 2 ^ 32) ∧
    4 ≤ bs.length ∧
    (bs.length - 4 < 2 ^ 32 → leVal (bs.take 4) = bs.length - 4) := by
  have hf : isFramed v = true := by
    cases v <;> simp_all [isComposite, isFramed]
  obtain ⟨rest, hrest⟩ := encode_framed v hf bs h
  subst hrest
  have htake := take_leBytes_append (rest.length % 2 ^ 32) rest
  have hlen := length_leBytes_append (rest.length % 2 ^ 32) rest
  refine ⟨?_, ?_, ?_⟩
  · rw [htake, hlen]
    congr 1
    omega
  · rw [hlen]
    omega
  · intro hsmall
    rw [hlen] at hsmall
    rw [htake, leVal_leBytes, pow256_four, hlen]
    omega

/-- Witness for C1 at the tuple `(u8 5)`: the frame is `[1,0,0,0,5]` and the
prefix decodes to the exact byte count 1 following it. -/
theorem composite_frame_length_witness :
    leVal (([1, 0, 0, 0, 5] : List Nat).take 4) = ([1, 0, 0, 0, 5] : List Nat).length - 4 := by
  have hch : chunksOf (.vTuple [.vU8 5]) = some [[1, 0, 0, 0], [5]] := by
    simp [chunksOf, chunksList, chunkLen, leBytes]
  have henc : encode (Value.vTuple [Value.vU8 5]) = some [1, 0, 0, 0, 5] := by
    rw [encode_eq_chunks _ _ hch]
    simp
  exact (composite_frame_length (Value.vTuple [Value.vU8 5]) (by rfl)
    [1, 0, 0, 0, 5] henc).2.2 (by decide)

/-- A string whose byte length is exactly `2 ^ 32`, used to exhibit the
`usize`-to-`u32` truncation of the size prefixes. -/
def bigStr : List Nat := List.replicate (2 ^ 32) 0

theorem bigStr_len : bigStr.length = 2 ^ 32 := List.length_replicate (2 ^ 32) 0

theorem chunksOf_bigStr : chunksOf (Value.vStr bigStr) = some [leBytes 4 0, bigStr] := by
  simp only [chunksOf, bigStr_len, Nat.mod_self]

theorem chunksList_bigStr :
    chunksList [Value.vStr bigStr] = some [leBytes 4 0, bigStr] := by
  simp only [chunksList, chunksOf_bigStr, List.append_nil]

theorem chunkLen_bigStr : chunkLen [leBytes 4 0, bigStr] = 4 + 2 ^ 32 := by
  simp only [chunkLen, List.map_cons, List.map_nil, List.sum_cons, List.sum_nil,
    leBytes_length, bigStr_len, Nat.add_zero]

/-- Counterexample to C1 as stated: a tuple holding a string of `2 ^ 32`
bytes encodes successfully, but the 4-byte prefix decodes to 4 while
`2 ^ 32 + 4` bytes follow it. -/
theorem composite_frame_length_cex :
    encode (Value.vTuple [Value.vStr bigStr])
      = some (leBytes 4 4 ++ leBytes 4 0 ++ bigStr) ∧
    leVal ((leBytes 4 4 ++ leBytes 4 0 ++ bigStr).take 4)
      ≠ (leBytes 4 4 ++ leBytes 4 0 ++ bigStr).length - 4 := by
  have hmod4 : (4 + 2 ^ 32) % 2 ^ 32 = 4 := by omega
  have hch : chunksOf (.vTuple [.vStr bigStr])
      = some [leBytes 4 4, leBytes 4 0, bigStr] := by
    simp only [chunksOf, chunksList_bigStr, chunkLen_bigStr, hmod4]
  constructor
  · rw [encode_eq_chunks _ _ hch]
    simp only [List.flatten_cons, List.flatten_nil, List.append_nil, List.append_assoc]
  · have htake : (leBytes 4 4 ++ leBytes 4 0 ++ bigStr).take 4 = leBytes 4 4 := by
      rw [List.append_assoc]
      exact take_leBytes_append 4 _
    have hlen : (leBytes 4 4 ++ leBytes 4 0 ++ bigStr).length = 8 + 2 ^ 32 := by
      simp only [List.length_append, leBytes_length, bigStr_len]
    rw [htake, hlen, leVal_leBytes, pow256_four]
    omega

/-- The list of the standalone encodings of the elements of `es`, `none` as
soon as one element fails to encode. -/
def encodeAll : List Value → Option (List (List Nat))
  | [] => some []
  | v :: vs =>
    match encode v, encodeAll vs with
    | some b, some bs => some (b :: bs)
    | _, _ => none

/-- `chunksList` through per-element top-level encodings: if every element of
`es` encodes on its own, the concatenated chunk bytes of the list equal the
concatenated element encodings. -/
theorem chunksList_of_encodeAll (es : List Value) :
    ∀ bss : List (List Nat), encodeAll es = some bss →
      ∃ cs, chunksList es = some cs ∧ cs.flatten = bss.flatten := by
  induction es with
  | nil =>
    intro bss h
    simp only [encodeAll, Option.some.injEq] at h
    subst h
    exact ⟨[], by simp [chunksList], by simp⟩
  | cons v vs ih =>
    intro bss h
    simp only [encodeAll] at h
    cases hv : encode v with
    | none => rw [hv] at h; simp at h
    | some b =>
      cases hm : encodeAll vs with
      | none => rw [hv, hm] at h; simp at h
      | some bs =>
        rw [hv, hm] at h
        simp only [Option.some.injEq] at h
        subst h
        obtain ⟨cv, hcv, hb⟩ := encode_some_inv v b hv
        obtain ⟨cs, hcs, hflat⟩ := ih bs hm
        refine ⟨cv ++ cs, ?_, ?_⟩
        · simp [chunksList, hcv, hcs]
        · simp [hflat, hb]

/-- Claim C2 (amended): encoding a sequence whose elements each encode
writes the backfilled outer prefix (4 + total element bytes, modulo 2 ^ 32),
then the 4-byte little-endian element count (modulo 2 ^ 32), then the
element encodings concatenated in order; the prefix is exact whenever
4 + total fits in 32 bits. -/
theorem seq_layout (es : List Value) (bss : List (List Nat))
    (h : encodeAll es = some bss) :
    encode (Value.vSeq es)
      = some (leBytes 4 ((4 + bss.flatten.length) % 2 ^ 32)
          ++ leBytes 4 (es.length % 2 ^ 32) ++ bss.flatten) ∧
    (4 + bss.flatten.length < 2 ^ 32 →
      leVal (leBytes 4 ((4 + bss.flatten.length) % 2 ^ 32)) = 4 + bss.flatten.length) := by
  obtain ⟨cs, hcs, hfl⟩ := chunksList_of_encodeAll es bss h
  have hck : chunkLen cs = bss.flatten.length := by
    rw [← hfl, flatten_chunkLen]
  have hch : chunksOf (.vSeq es)
      = some (leBytes 4 ((4 + bss.flatten.length) % 2 ^ 32)
          :: leBytes 4 (es.length % 2 ^ 32) :: cs) := by
    simp [chunksOf, hcs, hck]
  constructor
  · rw [encode_eq_chunks _ _ hch]
    simp [hfl]
  · intro hlt
    rw [leVal_leBytes, pow256_four]
    omega

/-- Witness for C2 at the sequence `[u8 7, u8 9]`. -/
theorem seq_layout_witness :
    encode (Value.vSeq [Value.vU8 7, Value.vU8 9])
      = some (leBytes 4 ((4 + (([[7], [9]] : List (List Nat)).flatten.length)) % 2 ^ 32)
          ++ leBytes 4 (([Value.vU8 7, Value.vU8 9].length) % 2 ^ 32)
          ++ ([[7], [9]] : List (List Nat)).flatten) := by
  have h7 : encode (Value.vU8 7) = some [7] := by
    rw [encode_eq_chunks _ [[7]] (by simp [chunksOf])]
    simp
  have h9 : encode (Value.vU8 9) = some [9] := by
    rw [encode_eq_chunks _ [[9]] (by simp [chunksOf])]
    simp
  have h : encodeAll [Value.vU8 7, Value.vU8 9] = some [[7], [9]] := by
    simp only [encodeAll, h7, h9]
  exact (seq_layout [Value.vU8 7, Value.vU8 9] [[7], [9]] h).1

/-- Counterexample to C2 as stated: the one-element sequence holding a
string of `2 ^ 32` bytes encodes successfully, but the backfilled outer
prefix decodes to 8 while the element-count bytes plus the element encoding
total `2 ^ 32 + 8` bytes. -/
theorem seq_layout_cex :
    encodeAll [Value.vStr bigStr] = some [leBytes 4 0 ++ bigStr] ∧
    encode (Value.vSeq [Value.vStr bigStr])
      = some (leBytes 4 8 ++ leBytes 4 1 ++ leBytes 4 0 ++ bigStr) ∧
    leVal ((leBytes 4 8 ++ leBytes 4 1 ++ leBytes 4 0 ++ bigStr).take 4)
      ≠ 4 + (leBytes 4 0 ++ bigStr).length := by
  have henc : encode (Value.vStr bigStr) = some (leBytes 4 0 ++ bigStr) := by
    rw [encode_eq_chunks _ _ chunksOf_bigStr]
    simp only [List.flatten_cons, List.flatten_nil, List.append_nil]
  refine ⟨?_, ?_, ?_⟩
  · simp only [encodeAll, henc]
  · have hmod8 : (4 + (4 + 2 ^ 32)) % 2 ^ 32 = 8 := by omega
    have hmod1 : (1 : Nat) % 2 ^ 32 = 1 := by omega
    have hch : chunksOf (.vSeq [.vStr bigStr])
        = some [leBytes 4 8, leBytes 4 1, leBytes 4 0, bigStr] := by
      simp only [chunksOf, chunksList_bigStr, chunkLen_bigStr, hmod8,
        List.length_cons, List.length_nil, Nat.zero_add, hmod1]
    rw [encode_eq_chunks _ _ hch]
    simp only [List.flatten_cons, List.flatten_nil, List.append_nil, List.append_assoc]
  · have htake : (leBytes 4 8 ++ leBytes 4 1 ++ leBytes 4 0 ++ bigStr).take 4
        = leBytes 4 8 := by
      rw [List.append_assoc, List.append_assoc]
      exact take_leBytes_append 8 _
    rw [htake, leVal_leBytes, pow256_four, length_leBytes_append, bigStr_len]
    omega

/-- `emit_struct_field` ignores the field name, so encoding struct fields is
encoding the field values in order. -/
theorem emitFields_eq_emitList (fs : List (String × Value)) :
    ∀ e : Encoder, emitFields fs e = emitList (fs.map Prod.snd) e := by
  induction fs with
  | nil => intro e; simp [emitFields, emitList]
  | cons f fs ih =>
    intro e
    obtain ⟨a, v⟩ := f
    simp only [emitFields, List.map_cons, emitList]
    cases hE : emit v e with
    | mk e1 err =>
      cases err with
      | none => exact ih e1
      | some err => rfl

/-- Claim C4: encoding values as a struct and as the tuple of its field
values (declaration order) produces identical encoder transitions — field
names are never written. -/
theorem struct_tuple_same (name : String) (fields : List (String × Value)) (e : Encoder) :
    emit (Value.vStruct name fields) e = emit (Value.vTuple (fields.map Prod.snd)) e := by
  simp only [emit]
  rw [emitFields_eq_emitList]

/-- The unsupported shapes: nil/unit, usize, isize, char, options, maps,
enumerated variants and tuple structs. -/
def unsupportedShape : Value → Bool
  | .vNil => true
  | .vUsize _ => true
  | .vIsize _ => true
  | .vChar _ => true
  | .vOption _ => true
  | .vMap _ => true
  | .vEnum _ => true
  | .vTupleStruct _ _ => true
  | _ => false

/-- Claim C5: emitting any unsupported shape returns `UnsupportedData` and
leaves the encoder output exactly as it was (nothing is appended). -/
theorem unsupported_rejected (v : Value) (e : Encoder) (h : unsupportedShape v = true) :
    emit v e = (e, some Error.UnsupportedData) := by
  cases v with
  | vNil => simp [emit]
  | vUsize x => simp [emit]
  | vIsize x => simp [emit]
  | vChar x => simp [emit]
  | vOption o => simp [emit]
  | vMap entries => simp [emit]
  | vEnum name => simp [emit]
  | vTupleStruct name args => simp [emit]
  | vU8 x => exact Bool.noConfusion h
  | vU16 x => exact Bool.noConfusion h
  | vU32 x => exact Bool.noConfusion h
  | vU64 x => exact Bool.noConfusion h
  | vI8 x => exact Bool.noConfusion h
  | vI16 x => exact Bool.noConfusion h
  | vI32 x => exact Bool.noConfusion h
  | vI64 x => exact Bool.noConfusion h
  | vF32 x => exact Bool.noConfusion h
  | vF64 x => exact Bool.noConfusion h
  | vBool b => exact Bool.noConfusion h
  | vStr s => exact Bool.noConfusion h
  | vStruct name fields => exact Bool.noConfusion h
  | vTuple elems => exact Bool.noConfusion h
  | vSeq elems => exact Bool.noConfusion h

/-- Witness for C5 at the unit value and the fresh encoder. -/
theorem unsupported_rejected_witness :
    emit Value.vNil Encoder.new = (Encoder.new, some Error.UnsupportedData) :=
  unsupported_rejected Value.vNil Encoder.new (by rfl)

/-- Claim C9: a framed value (string, sequence, tuple or struct) whose
content is encodable always encodes without error; the 4-byte prefix holds
the following byte count reduced modulo 2 ^ 32, so once that count reaches
`2 ^ 32` the prefix strictly understates it. -/
theorem size_truncation (v : Value) (cs : List (List Nat)) (hf : isFramed v = true)
    (hc : chunksOf v = some cs) :
    ∃ bs, encode v = some bs ∧
      bs.take 4 = leBytes 4 ((bs.length - 4) % 2 ^ 32) ∧
      (2 ^ 32 ≤ bs.length - 4 → leVal (bs.take 4) < bs.length - 4) := by
  have henc := encode_eq_chunks v cs hc
  obtain ⟨rest, hrest⟩ := framed_chunks v hf cs hc
  subst hrest
  have hfl : (leBytes 4 (chunkLen rest % 2 ^ 32) :: rest).flatten
      = leBytes 4 (rest.flatten.length % 2 ^ 32) ++ rest.flatten := by
    rw [← flatten_chunkLen]
    simp
  rw [hfl] at henc
  refine ⟨_, henc, ?_, ?_⟩
  · rw [take_leBytes_append, length_leBytes_append]
    congr 1
    omega
  · intro hbig
    rw [length_leBytes_append] at hbig
    rw [take_leBytes_append, leVal_leBytes, pow256_four, length_leBytes_append]
    omega

/-- Witness for C9 at a string of exactly `2 ^ 32` bytes: the prefix decodes
to 0 although `2 ^ 32` bytes follow it. -/
theorem size_truncation_witness :
    leVal ((leBytes 4 0 ++ bigStr).take 4) < (leBytes 4 0 ++ bigStr).length - 4 := by
  obtain ⟨bs, henc, htake, hlt⟩ :=
    size_truncation (Value.vStr bigStr) [leBytes 4 0, bigStr] (by rfl) chunksOf_bigStr
  have henc2 : encode (Value.vStr bigStr) = some (leBytes 4 0 ++ bigStr) := by
    rw [encode_eq_chunks _ _ chunksOf_bigStr]
    simp only [List.flatten_cons, List.flatten_nil, List.append_nil]
  rw [henc] at henc2
  simp only [Option.some.injEq] at henc2
  subst henc2
  apply hlt
  rw [length_leBytes_append, bigStr_len]
  omega

/-- Transport-level error kinds of the service client reachable on the
modelled paths (`super::error::ErrorKind`); decode faults of the response
codec are collapsed into `DecodeFail`. -/
inductive TError where
  | ServiceConnectionFail
  | HeaderMissingField (field : String)
  | ServiceResponseInterruption
  | DecodeFail
deriving DecidableEq

/-- `read_u8`: take one byte off the stream, `none` on short read. -/
def readU8 : List Nat → Option (Nat × List Nat)
  | [] => none
  | b :: rest => some (b, rest)

/-- `read_u32::<LittleEndian>`: consume 4 bytes, little-endian value,
`none` on short read. -/
def readU32LE : List Nat → Option (Nat × List Nat)
  | b0 :: b1 :: b2 :: b3 :: rest =>
    some (b0 + 256 * b1 + 65536 * b2 + 16777216 * b3, rest)
  | _ => none

/-- Modelled from the spec: `RosMsg::decode` for `String` (the rosmsg
decoder module is not among the provided sources; spec section 4.2 and the
wire grammar of section 6) reads a 4-byte little-endian length and then
that many raw bytes, failing on a short read. -/
def decodeString (s : List Nat) : Option (List Nat × List Nat) :=
  match readU32LE s with
  | none => none
  | some (n, rest) =>
    if n ≤ rest.length then some (rest.take n, rest.drop n) else none

/-- `read_response` of `client.rs`, taking the already-decoded header map
(the header codec lives outside the provided sources): it only checks that
the `callerid` field is present. -/
def readResponse (fields : List (String × String)) : Except TError Unit :=
  if (fields.lookup "callerid").isNone then .error (.HeaderMissingField "callerid")
  else .ok ()

/-- The character list of the literal `rosrpc://` scheme. -/
def rosChars : List Char := "rosrpc://".toList

/-- Whether `s` starts with the pattern (first argument). -/
def hasLead : List Char → List Char → Bool
  | [], _ => true
  | _ :: _, [] => false
  | p :: ps, c :: cs => p == c && hasLead ps cs

/-- `str::trim_start_matches("rosrpc://")` from the connect step: strips
the scheme repeatedly while it leads.  Written with fuel so that it
computes; fuel equal to the string length suffices because every strip
removes nine characters. -/
def stripRos : Nat → List Char → List Char
  | 0, s => s
  | fuel + 1, s =>
    if hasLead rosChars s then stripRos fuel (s.drop rosChars.length) else s

/-- The address handed to `TcpStream::connect`. -/
def connectAddr (uri : String) : String :=
  ⟨stripRos uri.toList.length uri.toList⟩

/-- A deterministic model of the peer for one call: whether the TCP connect
to a given address succeeds, the decoded response-header fields, the bytes
the server sends after the handshake, and the `RosMsg::decode` of the
response type (that decoder lives outside the provided sources, so it is a
parameter consuming a byte stream). -/
structure Network (α : Type) where
  connect : String → Bool
  respFields : List (String × String)
  respBytes : List Nat
  decodeResp : List Nat → Option (α × List Nat)

/-- `Client::request_body` over the network model, following the source
order: connect to the trimmed URI, validate the response header, then read
one verification byte; on nonzero read and discard 4 length bytes and
decode a response, on zero decode a failure string.  The outbound header
and request writes go to in-memory buffers and the peer and cannot fail in
the model, so they do not appear. -/
def requestBody {α ρ : Type} (net : Network α) (args : ρ)
    (uri caller_id service : String) : Except TError (Except (List Nat) α) :=
  if net.connect (connectAddr uri) = false then .error .ServiceConnectionFail
  else
    match readResponse net.respFields with
    | .error err => .error err
    | .ok _ =>
      match readU8 net.respBytes with
      | none => .error .ServiceResponseInterruption
      | some (b, s1) =>
        if b ≠ 0 then
          match net.decodeResp (s1.drop 4) with
          | some (v, _) => .ok (.ok v)
          | none => .error .DecodeFail
        else
          match decodeString s1 with
          | some (msg, _) => .ok (.error msg)
          | none => .error .DecodeFail

/-- `ClientInfo`: the immutable caller identity / URI / service triple. -/
structure ClientInfo where
  caller_id : String
  uri : String
  service : String

/-- `ClientResponse<T>` holds a worker's eventual outcome; the worker is
modelled deterministically, so the handle holds the computed result. -/
structure ClientResponse (α : Type) where
  handle : Except TError (Except (List Nat) α)

/-- `ClientResponse::read`: join the worker and return its result (the
deterministic modelled worker cannot panic, so the
`ServiceResponseUnknown` fallback is unreachable). -/
def ClientResponse.read {α : Type} (r : ClientResponse α) :
    Except TError (Except (List Nat) α) := r.handle

/-- `Client::req`: run `request_body` synchronously with the shared
`ClientInfo` fields. -/
def req {α ρ : Type} (c : ClientInfo) (net : Network α) (args : ρ) :
    Except TError (Except (List Nat) α) :=
  requestBody net args c.uri c.caller_id c.service

/-- `Client::req_async`: spawn `request_body` with the same `ClientInfo`
fields on a worker and hand back its outcome. -/
def reqAsync {α ρ : Type} (c : ClientInfo) (net : Network α) (args : ρ) :
    ClientResponse α :=
  ⟨requestBody net args c.uri c.caller_id c.service⟩

theorem readResponse_ok (fields : List (String × String))
    (h : (fields.lookup "callerid").isSome = true) :
    readResponse fields = .ok () := by
  cases hL : fields.lookup "callerid" with
  | none => rw [hL] at h; simp at h
  | some cid => simp [readResponse, hL]

/-- Claim C3: after a successful connect, header validation and request
write, the client reads exactly one verification byte: an empty response
stream (short read) gives `ServiceResponseInterruption`; byte 0 gives
`Ok(Err(message))` with a length-prefixed string decoded from the rest;
a nonzero byte gives `Ok(Ok(response))` decoded per the codec. -/
theorem response_paths {α ρ : Type} (net : Network α) (args : ρ)
    (uri caller_id service : String)
    (hconn : net.connect (connectAddr uri) = true)
    (hdr : (net.respFields.lookup "callerid").isSome = true) :
    (net.respBytes = [] →
      requestBody net args uri caller_id service = .error .ServiceResponseInterruption) ∧
    (∀ s1 msg r, net.respBytes = 0 :: s1 → decodeString s1 = some (msg, r) →
      requestBody net args uri caller_id service = .ok (.error msg)) ∧
    (∀ b s1 v r, net.respBytes = b :: s1 → b ≠ 0 →
      net.decodeResp (s1.drop 4) = some (v, r) →
      requestBody net args uri caller_id service = .ok (.ok v)) := by
  have hrr := readResponse_ok net.respFields hdr
  refine ⟨?_, ?_, ?_⟩
  · intro hb
    simp [requestBody, hconn, hrr, hb, readU8]
  · intro s1 msg r hb hdec
    simp [requestBody, hconn, hrr, hb, readU8, hdec]
  · intro b s1 v r hb hbne hdec
    simp [requestBody, hconn, hrr, hb, readU8, hbne, hdec]

/-- Witness for C3: the three paths at concrete mock streams. -/
theorem response_paths_witness :
    requestBody (⟨fun _ => true, [("callerid", "srv")], [],
        fun s => readU8 s⟩ : Network Nat) (0 : Nat) "u" "c" "s"
      = .error .ServiceResponseInterruption ∧
    requestBody (⟨fun _ => true, [("callerid", "srv")], [0, 2, 0, 0, 0, 65, 66],
        fun s => readU8 s⟩ : Network Nat) (0 : Nat) "u" "c" "s"
      = .ok (.error [65, 66]) ∧
    requestBody (⟨fun _ => true, [("callerid", "srv")], [1, 9, 9, 9, 9, 7],
        fun s => readU8 s⟩ : Network Nat) (0 : Nat) "u" "c" "s"
      = .ok (.ok 7) := by
  refine ⟨?_, ?_, ?_⟩
  · exact (response_paths _ 0 "u" "c" "s" (by decide) (by decide)).1 rfl
  · exact (response_paths _ 0 "u" "c" "s" (by decide) (by decide)).2.1
      [2, 0, 0, 0, 65, 66] [65, 66] [] rfl (by decide)
  · exact (response_paths _ 0 "u" "c" "s" (by decide) (by decide)).2.2
      1 [9, 9, 9, 9, 7] 7 [] rfl (by decide) (by decide)

/-- Claim C6: only the presence of the `callerid` response-header field is
checked — absence gives `HeaderMissingField("callerid")`, presence lets the
call proceed regardless of its value and of every other field. -/
theorem callerid_only_check :
    (∀ fields : List (String × String), fields.lookup "callerid" = none →
      readResponse fields = .error (.HeaderMissingField "callerid")) ∧
    (∀ (fields : List (String × String)) (v : String),
      fields.lookup "callerid" = some v → readResponse fields = .ok ()) ∧
    (∀ (α ρ : Type) (net : Network α) (fields2 : List (String × String)) (args : ρ)
      (uri caller_id service : String),
      (net.respFields.lookup "callerid").isSome = true →
      (fields2.lookup "callerid").isSome = true →
      requestBody (⟨net.connect, fields2, net.respBytes, net.decodeResp⟩ : Network α)
          args uri caller_id service
        = requestBody net args uri caller_id service) := by
  refine ⟨?_, ?_, ?_⟩
  · intro fields h
    simp [readResponse, h]
  · intro fields v h
    simp [readResponse, h]
  · intro α ρ net fields2 args uri caller_id service h1 h2
    have e1 := readResponse_ok fields2 h2
    have e2 := readResponse_ok net.respFields h1
    simp [requestBody, e1, e2]

/-- Witness for C6: a header without `callerid` fails, ones with it (any
value, any extra fields) give identical outcomes. -/
theorem callerid_only_check_witness :
    readResponse [("service", "x")] = .error (.HeaderMissingField "callerid") ∧
    readResponse [("callerid", "me")] = .ok () ∧
    requestBody (⟨fun _ => true, [("callerid", "a"), ("extra", "y")], [],
        fun s => readU8 s⟩ : Network Nat) (0 : Nat) "u" "c" "s"
      = requestBody (⟨fun _ => true, [("callerid", "b")], [],
        fun s => readU8 s⟩ : Network Nat) (0 : Nat) "u" "c" "s" := by
  refine ⟨?_, ?_, ?_⟩
  · exact callerid_only_check.1 [("service", "x")] (by decide)
  · exact callerid_only_check.2.1 [("callerid", "me")] "me" (by decide)
  · exact callerid_only_check.2.2 Nat Nat
      ⟨fun _ => true, [("callerid", "b")], [], fun s => readU8 s⟩
      [("callerid", "a"), ("extra", "y")] 0 "u" "c" "s" (by decide) (by decide)

/-- Claim C7: on a nonzero verification byte the client drops exactly 4
bytes before decoding and never validates them — any two 4-byte prefixes
give the same outcome, and the response is decoded from the bytes after
them. -/
theorem success_discards_length {α ρ : Type} (net : Network α) (args : ρ)
    (uri caller_id service : String) (b : Nat) (hb : b ≠ 0)
    (p1 p2 rest : List Nat) (h1 : p1.length = 4) (h2 : p2.length = 4) :
    requestBody (⟨net.connect, net.respFields, b :: (p1 ++ rest), net.decodeResp⟩ : Network α)
        args uri caller_id service
      = requestBody (⟨net.connect, net.respFields, b :: (p2 ++ rest), net.decodeResp⟩ : Network α)
        args uri caller_id service ∧
    (net.connect (connectAddr uri) = true →
      (net.respFields.lookup "callerid").isSome = true →
      requestBody (⟨net.connect, net.respFields, b :: (p1 ++ rest), net.decodeResp⟩ : Network α)
          args uri caller_id service
        = match net.decodeResp rest with
          | some (v, _) => .ok (.ok v)
          | none => .error .DecodeFail) := by
  have hd1 : (p1 ++ rest).drop 4 = rest := by
    rw [← h1]
    exact List.drop_left p1 rest
  have hd2 : (p2 ++ rest).drop 4 = rest := by
    rw [← h2]
    exact List.drop_left p2 rest
  constructor
  · simp [requestBody, readU8, hd1, hd2, hb]
  · intro hconn hdr
    have hrr := readResponse_ok net.respFields hdr
    simp [requestBody, readU8, hconn, hrr, hb, hd1]

/-- Witness for C7: two different discarded prefixes, identical outcome. -/
theorem success_discards_length_witness :
    requestBody (⟨fun _ => true, [("callerid", "srv")], 1 :: ([0, 0, 0, 0] ++ [5]),
        fun s => readU8 s⟩ : Network Nat) (0 : Nat) "u" "c" "s"
      = requestBody (⟨fun _ => true, [("callerid", "srv")], 1 :: ([9, 9, 9, 9] ++ [5]),
        fun s => readU8 s⟩ : Network Nat) (0 : Nat) "u" "c" "s" :=
  (success_discards_length
    ⟨fun _ => true, [("callerid", "srv")], [], fun s => readU8 s⟩
    0 "u" "c" "s" 1 (by decide) [0, 0, 0, 0] [9, 9, 9, 9] [5]
    (by decide) (by decide)).1

/-- Claim C8: reading the async handle returns exactly what the synchronous
call returns: both run the same `requestBody` with the same caller
identity, URI and service name from the shared `ClientInfo`. -/
theorem req_async_equiv_req {α ρ : Type} (c : ClientInfo) (net : Network α) (args : ρ) :
    (reqAsync c net args).read = req c net args ∧
    req c net args = requestBody net args c.uri c.caller_id c.service :=
  ⟨rfl, rfl⟩

theorem hasLead_length (pat : List Char) :
    ∀ s : List Char, hasLead pat s = true → pat.length ≤ s.length := by
  induction pat with
  | nil => intro s h; simp
  | cons p ps ih =>
    intro s h
    cases s with
    | nil => exact absurd h (by simp [hasLead])
    | cons c cs =>
      simp only [hasLead, Bool.and_eq_true] at h
      have := ih cs h.2
      simp only [List.length_cons]
      omega

theorem stripRos_of_not_lead (n : Nat) (l : List Char)
    (h : hasLead rosChars l = false) : stripRos n l = l := by
  cases n with
  | zero => rfl
  | succ m => simp [stripRos, h]

theorem stripRos_result_not_lead :
    ∀ (fuel : Nat) (l : List Char), l.length ≤ fuel →
      hasLead rosChars (stripRos fuel l) = false := by
  intro fuel
  induction fuel with
  | zero =>
    intro l hl
    have : l = [] := by
      cases l with
      | nil => rfl
      | cons c cs => simp at hl
    subst this
    decide
  | succ m ih =>
    intro l hl
    cases hlead : hasLead rosChars l with
    | false => simp [stripRos, hlead]
    | true =>
      have h9 : 9 ≤ l.length := by
        have := hasLead_length rosChars l hlead
        simpa using this
      simp only [stripRos, hlead, if_true]
      apply ih
      simp only [List.length_drop]
      have h9' : rosChars.length = 9 := by decide
      rw [h9']
      omega

/-- Claim C10: the connect step strips every leading `rosrpc://`, not just
one — the doubled scheme is fully removed, a URI without the scheme passes
through unchanged, and the connected-to address never starts with the
scheme. -/
theorem uri_trim :
    connectAddr "rosrpc://rosrpc://host:port" = "host:port" ∧
    (∀ uri : String, hasLead rosChars uri.toList = false → connectAddr uri = uri) ∧
    (∀ uri : String, hasLead rosChars (connectAddr uri).toList = false) := by
  refine ⟨by decide, ?_, ?_⟩
  · intro uri h
    show (⟨stripRos uri.toList.length uri.toList⟩ : String) = uri
    rw [stripRos_of_not_lead _ _ h]
    rfl
  · intro uri
    exact stripRos_result_not_lead uri.toList.length uri.toList (Nat.le_refl _)

/-- Witness for C10: a URI with a different scheme passes through. -/
theorem uri_trim_witness : connectAddr "http://x" = "http://x" :=
  uri_trim.2.1 "http://x" (by decide)

end Rosrust
